import Mathlib

/-!
Verification of the `concurrency_limit` distributed limiter core
(`src/concurrency_limit/context_managers.py`).

The store is the single Redis hash at the limiter's key: an association list
from slot-id fields to expiry-value strings, together with the record-level
TTL.  The `limit` context manager is embedded as a fuel-indexed loop over an
adversarial environment: the store contents observed at each atomic Redis
operation, the wall clock and the monotonic elapsed time at each iteration,
and the caller-supplied critical section are all oracles, so the theorems
quantify over every possible interleaving with other processes.  A separate
small-step relation models N acquirers racing on one limiter record for the
committed-bound property.
-/

namespace ConcurrencyLimit

/-- The limiter record: the Redis hash stored at the limiter's key
(field = slot id, value = expiry timestamp rendered as text), plus the
record-level TTL set by `expire`. -/
structure Store where
  hash : List (String × String)
  ttl : Option Nat
deriving DecidableEq, Repr

/-- Redis `HLEN`: number of fields in the hash (`client.hlen(lock_key)`). -/
def hlen (s : Store) : Nat := s.hash.length

/-- Redis `HSET`: overwrite the field if present, append it otherwise
(`client.hset(lock_key, lock_id, ...)`). -/
def hset (s : Store) (field value : String) : Store :=
  if s.hash.any (fun p => p.1 == field) then
    { s with hash := s.hash.map (fun p => if p.1 == field then (field, value) else p) }
  else
    { s with hash := s.hash ++ [(field, value)] }

/-- Redis `EXPIRE`: set the record-level TTL
(`client.expire(lock_key, lock_expire)`). -/
def expire (s : Store) (seconds : Nat) : Store :=
  { s with ttl := some seconds }

/-- Redis `HDEL` of one field: remove it from the hash and return how many
fields were removed (`client.hdel(lock_key, lock_id)`). -/
def hdel (s : Store) (field : String) : Store × Nat :=
  ({ s with hash := s.hash.filter (fun p => p.1 != field) },
   if s.hash.any (fun p => p.1 == field) then 1 else 0)

/-- Whether a field is present in the hash. -/
def hasField (s : Store) (field : String) : Bool :=
  s.hash.any (fun p => p.1 == field)

/-- The configuration fields of `LimitConfiguration` that
`context_managers.py` reads: `key`, `limit`, `limit_timeout`,
`limit_expire`, `limit_interval`. -/
structure LimitConfiguration where
  key : String
  limit : Nat
  limit_timeout : Nat
  limit_expire : Nat
  limit_interval : Nat
deriving DecidableEq, Repr

/-- Modelled from the spec: `exceptions.py` is not under `src/`; the spec
states the timeout error "carries the configured limit and timeout values",
and the construction site in `context_managers.py` passes exactly
`limit=lock_limit, timeout=lock_timeout`. -/
structure ConcurrencyLimitExceededException where
  limit : Nat
  timeout : Nat
deriving DecidableEq, Repr

/-- The Redis commands the acquisition loop can issue in one iteration:
the fast-reject `hlen` read, the atomic `hset`/`expire`/`hlen` pipeline,
and the rollback `hdel`. -/
inductive RedisOp where
  | hlenRead (key : String)
  | pipelineWrite (key field value : String) (ttlSeconds : Nat)
  | hdelWrite (key field : String)
deriving DecidableEq, Repr

/-- Whether a command mutates the store. -/
def isWrite : RedisOp → Bool
  | .hlenRead _ => false
  | .pipelineWrite _ _ _ _ => true
  | .hdelWrite _ _ => true

/-- The slot-id fields a list of commands writes (inserted or deleted). -/
def writtenFields (ops : List RedisOp) : List String :=
  ops.filterMap fun op =>
    match op with
    | .hlenRead _ => none
    | .pipelineWrite _ f _ _ => some f
    | .hdelWrite _ f => some f

/-- The store produced by the atomic pipeline
`hset(lock_key, lock_id, int(time.time()) + lock_expire)` followed by
`expire(lock_key, lock_expire)`, applied to the store as it stands when the
pipeline executes. -/
def pipelineStore (cfg : LimitConfiguration) (lockId : String) (wall : Nat)
    (sMid : Store) : Store :=
  expire (hset sMid lockId (toString (wall + cfg.limit_expire))) cfg.limit_expire

/-- Result of one iteration of the acquisition loop, before the
retry/timeout handling: fast-rejected by the pre-check read, rejected by the
post-write verify (after rolling back the own insert), or acquired with the
post-write count. -/
inductive AttemptResult where
  | rejectedPre
  | rejectedPost (s : Store)
  | acquired (count : Nat) (s : Store)
deriving DecidableEq, Repr

/-- One iteration of the acquisition loop of `limit`, lines 63-82 of
`context_managers.py`, together with the Redis commands it issued.
`sPre` is the store observed by the pre-check `hlen`, `sMid` the store the
atomic pipeline executes on (other processes may run in between). -/
def attempt (cfg : LimitConfiguration) (lockId : String) (wall : Nat)
    (sPre sMid : Store) : AttemptResult × List RedisOp :=
  if hlen sPre ≥ cfg.limit then
    (.rejectedPre, [.hlenRead cfg.key])
  else
    let value := toString (wall + cfg.limit_expire)
    let s1 := pipelineStore cfg lockId wall sMid
    let count := hlen s1
    if count > cfg.limit then
      (.rejectedPost (hdel s1 lockId).1,
       [.hlenRead cfg.key, .pipelineWrite cfg.key lockId value cfg.limit_expire,
        .hdelWrite cfg.key lockId])
    else
      (.acquired count s1,
       [.hlenRead cfg.key, .pipelineWrite cfg.key lockId value cfg.limit_expire])

/-- The count carried by an `acquired` result, if any. -/
def acquiredOf : AttemptResult → Option Nat
  | .acquired c _ => some c
  | _ => none

/-- The adversarial environment of one `limit` call: the store observed at
the pre-check read and at the pipeline of each loop iteration, the wall
clock at each iteration, the monotonic elapsed time observed in the
exception handler of each iteration, the caller-supplied critical section,
and the store as it stands when the `finally` block runs. -/
structure LoopEnv (ε α : Type) where
  sPre : Nat → Store
  sMid : Nat → Store
  wall : Nat → Nat
  elapsed : Nat → Nat
  body : Nat → Except ε α
  sFin : Store

/-- Outcome of the `while True` loop of `limit`, before the `finally`
block: critical section completed, critical section raised, timeout raised,
or fuel exhausted (the loop is still spinning). -/
inductive LoopResult (ε α : Type) where
  | ok (count : Nat) (a : α)
  | bodyErr (count : Nat) (e : ε)
  | timeout (exc : ConcurrencyLimitExceededException)
  | spin
deriving DecidableEq

/-- The `while True` loop of `limit` (lines 59-97), starting at iteration
`k` with the given fuel, returning the loop outcome and, per executed
iteration, the Redis commands it issued.  An acquired slot yields the
post-write count to the critical section and breaks; a rejected attempt
checks the elapsed time against the timeout and otherwise sleeps and
retries. -/
def limitLoop (cfg : LimitConfiguration) (lockId : String) (env : LoopEnv ε α) :
    Nat → Nat → LoopResult ε α × List (Nat × List RedisOp)
  | _, 0 => (.spin, [])
  | k, fuel + 1 =>
    let att := attempt cfg lockId (env.wall k) (env.sPre k) (env.sMid k)
    match acquiredOf att.1 with
    | some count =>
      ((match env.body count with
        | .ok a => .ok count a
        | .error e => .bodyErr count e), [(k, att.2)])
    | none =>
      if env.elapsed k > cfg.limit_timeout then
        (.timeout ⟨cfg.limit, cfg.limit_timeout⟩, [(k, att.2)])
      else
        let rest := limitLoop cfg lockId env (k + 1) fuel
        (rest.1, (k, att.2) :: rest.2)

/-- Outcome of a whole `limit` call, after the `finally` block ran: each
terminating outcome carries the store left behind by the unconditional
`client.hdel(lock_key, lock_id)`. -/
inductive LimitOutcome (ε α : Type) where
  | ok (count : Nat) (a : α) (final : Store)
  | bodyErr (count : Nat) (e : ε) (final : Store)
  | timeout (exc : ConcurrencyLimitExceededException) (final : Store)
  | spin
deriving DecidableEq

/-- The `limit` context manager (lines 43-100): a single generated
`lock_id`, the acquisition loop, and the guaranteed-cleanup `finally`
deleting the own slot id on every terminating path. -/
def limit (cfg : LimitConfiguration) (lockId : String) (env : LoopEnv ε α)
    (fuel : Nat) : LimitOutcome ε α :=
  let fin := (hdel env.sFin lockId).1
  match (limitLoop cfg lockId env 0 fuel).1 with
  | .ok c a => .ok c a fin
  | .bodyErr c e => .bodyErr c e fin
  | .timeout exc => .timeout exc fin
  | .spin => .spin

/-- The final store of a terminated `limit` call. -/
def finalStore : LimitOutcome ε α → Option Store
  | .ok _ _ f => some f
  | .bodyErr _ _ f => some f
  | .timeout _ f => some f
  | .spin => none

/-- The count a loop outcome yielded to the critical section, if the loop
reached the critical section. -/
def yieldedCount : LoopResult ε α → Option Nat
  | .ok c _ => some c
  | .bodyErr c _ => some c
  | _ => none

/-- Whether iteration `k` of the loop acquired a slot, and with which
count. -/
def acquiredCount (cfg : LimitConfiguration) (lockId : String)
    (env : LoopEnv ε α) (k : Nat) : Option Nat :=
  acquiredOf (attempt cfg lockId (env.wall k) (env.sPre k) (env.sMid k)).1

/-- The reaper's staleness test (`limit_clean`, lines 120-123): an entry is
cleaned when its expiry parses and `current >= int(expiry)`, or when parsing
fails (`ValueError`/`TypeError`), in which case it is treated as stale
instead of raising. -/
def staleEntry (current : Int) (p : String × String) : Bool :=
  match p.2.toInt? with
  | some n => current ≥ n
  | none => true

/-- The `for scan_lock_id, scan_lock_expire in client.hscan_iter(...)` loop
of `limit_clean`: walk the snapshot of entries, `hdel` each stale one from
the store, and accumulate the number of deleted fields. -/
def cleanGo (current : Int) : List (String × String) → Store → Nat → Store × Nat
  | [], s, c => (s, c)
  | p :: rest, s, c =>
    if staleEntry current p then
      let r := hdel s p.1
      cleanGo current rest r.1 (c + r.2)
    else
      cleanGo current rest s c

/-- `limit_clean` (lines 103-128): scan the limiter record, delete every
stale or unparsable entry, and return the number of cleaned items.
`current` is `int(time.time())` at the start of the call. -/
def limit_clean (current : Int) (s : Store) : Store × Nat :=
  cleanGo current s.hash s 0

/-! ### Small-step model of N acquirers racing on one limiter record

Each acquirer runs the protocol of `limit` on a shared record.  The store
is abstracted to the set of slot-id fields currently in the hash (the
expiry values play no role in the counts).  Each constructor of `AcqStep`
is one atomic Redis operation of one acquirer: the fast-reject read, the
atomic `hset`/`hlen` pipeline (whose verify decision is a pure function of
the count it read), the rollback `hdel` of a loser, the `finally` `hdel` of
a holder, and giving up on timeout. -/

/-- Local phase of one acquirer: `out` = holds no entry (initial, after a
fast reject, after a rollback), `ready` = passed the fast-reject read,
`won` = inserted and verified (inside the critical section), `lost` =
inserted but the verify failed and the rollback `hdel` is still pending,
`done` = released or gave up. -/
inductive Phase where
  | out
  | ready
  | won
  | lost
  | done
deriving DecidableEq, Repr

/-- Global state: each acquirer's phase and the set of slot-id fields in
the shared limiter record. -/
structure SemState (n : Nat) where
  phase : Fin n → Phase
  store : Finset String

/-- Initial state: empty record, every acquirer outside. -/
def initState (n : Nat) : SemState n :=
  ⟨fun _ => Phase.out, ∅⟩

/-- One atomic step of one acquirer `i` with slot id `id i`, racing for a
record with limit `L`. -/
inductive AcqStep (n L : Nat) (id : Fin n → String) :
    SemState n → SemState n → Prop
  | precheckPass (s : SemState n) (i : Fin n)
      (h : s.phase i = Phase.out) (hc : s.store.card < L) :
      AcqStep n L id s ⟨Function.update s.phase i Phase.ready, s.store⟩
  | batch (s : SemState n) (i : Fin n) (h : s.phase i = Phase.ready) :
      AcqStep n L id s
        ⟨Function.update s.phase i
           (if (insert (id i) s.store).card > L then Phase.lost else Phase.won),
         insert (id i) s.store⟩
  | rollback (s : SemState n) (i : Fin n) (h : s.phase i = Phase.lost) :
      AcqStep n L id s
        ⟨Function.update s.phase i Phase.out, s.store.erase (id i)⟩
  | release (s : SemState n) (i : Fin n) (h : s.phase i = Phase.won) :
      AcqStep n L id s
        ⟨Function.update s.phase i Phase.done, s.store.erase (id i)⟩
  | giveup (s : SemState n) (i : Fin n) (h : s.phase i = Phase.out) :
      AcqStep n L id s ⟨Function.update s.phase i Phase.done, s.store⟩

/-- States reachable from the initial state by the racing acquirers. -/
inductive Reachable (n L : Nat) (id : Fin n → String) : SemState n → Prop
  | init : Reachable n L id (initState n)
  | step {s s' : SemState n} :
      Reachable n L id s → AcqStep n L id s s' → Reachable n L id s'

/-- Acquirers currently holding a verified slot. -/
def wonSet {n : Nat} (s : SemState n) : Finset (Fin n) :=
  Finset.univ.filter fun i => s.phase i = Phase.won

/-- Acquirers whose losing insert has not been rolled back yet. -/
def lostSet {n : Nat} (s : SemState n) : Finset (Fin n) :=
  Finset.univ.filter fun i => s.phase i = Phase.lost

/-- Acquirers with an entry in the record (winners plus pending losers). -/
def liveSet {n : Nat} (s : SemState n) : Finset (Fin n) :=
  Finset.univ.filter fun i => s.phase i = Phase.won ∨ s.phase i = Phase.lost

/-- Protocol invariant: the record holds exactly the ids of winners and
pending losers, and the number of winners never exceeds the limit. -/
def Inv {n : Nat} (L : Nat) (id : Fin n → String) (s : SemState n) : Prop :=
  s.store = (liveSet s).image id ∧ (wonSet s).card ≤ L

/-! ### Concrete configurations and environments used by the witnesses -/

/-- The empty limiter record. -/
def store0 : Store := ⟨[], none⟩

/-- A concrete configuration: key `k`, limit 1, timeout 10, expiry 30,
interval 1. -/
def cfgW : LimitConfiguration := ⟨"k", 1, 10, 30, 1⟩

/-- Environment in which the first attempt acquires the only slot and the
critical section returns its count. -/
def envOk : LoopEnv Unit Nat :=
  ⟨fun _ => store0, fun _ => store0, fun _ => 0, fun _ => 0,
   fun c => .ok c, ⟨[("me", "7")], some 3⟩⟩

/-- Environment in which a competing entry wins the race at every pipeline,
so every attempt is rejected at the verify step until the timeout. -/
def envTimeout : LoopEnv Unit Nat :=
  ⟨fun _ => store0, fun _ => ⟨[("other", "9")], none⟩, fun _ => 0,
   fun k => 6 * k, fun c => .ok c, ⟨[("me", "7")], some 3⟩⟩

/-- Environment in which the first attempt acquires the slot and the
critical section raises. -/
def envErr : LoopEnv Unit Nat :=
  ⟨fun _ => store0, fun _ => store0, fun _ => 0, fun _ => 0,
   fun _ => .error (), ⟨[("me", "7")], some 3⟩⟩

/-- Concrete injective slot-id assignment for two racing acquirers. -/
def idW : Fin 2 → String := fun i => if i = 0 then "a" else "b"

/-- A record with one competing entry, used where an occupied record is
needed. -/
def storeOther : Store := ⟨[("other", "9")], none⟩

/-- The reaper example record: one expired entry, one future entry, one
corrupt entry. -/
def storeC5 : Store := ⟨[("a", "0"), ("b", "20"), ("c", "corrupt")], none⟩

/-- First acquirer after its fast-reject read passed on the empty record. -/
def s1W : SemState 2 :=
  ⟨Function.update (initState 2).phase 0 Phase.ready, (initState 2).store⟩

/-- First acquirer after its atomic insert-and-verify pipeline. -/
def s2W : SemState 2 :=
  ⟨Function.update s1W.phase 0
     (if (insert (idW 0) s1W.store).card > 1 then Phase.lost else Phase.won),
   insert (idW 0) s1W.store⟩

/-! ### Helper lemmas for the racing-acquirers invariant -/

theorem filter_update_phase {n : Nat} (φ : Fin n → Phase) (i : Fin n) (ph : Phase)
    (P : Phase → Prop) [DecidablePred P] :
    (Finset.univ.filter fun j => P (Function.update φ i ph j)) =
      if P ph then insert i ((Finset.univ.filter fun j => P (φ j)).erase i)
      else (Finset.univ.filter fun j => P (φ j)).erase i := by
  ext j
  by_cases hj : j = i
  · subst hj
    by_cases hp : P ph <;>
      simp [Function.update_same, hp, Finset.mem_insert, Finset.mem_erase]
  · by_cases hp : P ph <;>
      simp [Function.update_noteq hj, hp, hj, Finset.mem_erase, Finset.mem_insert]

theorem liveSet_update {n : Nat} (s : SemState n) (i : Fin n) (ph : Phase)
    (st : Finset String) :
    liveSet (⟨Function.update s.phase i ph, st⟩ : SemState n) =
      if ph = Phase.won ∨ ph = Phase.lost then insert i ((liveSet s).erase i)
      else (liveSet s).erase i :=
  filter_update_phase s.phase i ph (fun p => p = Phase.won ∨ p = Phase.lost)

theorem wonSet_update {n : Nat} (s : SemState n) (i : Fin n) (ph : Phase)
    (st : Finset String) :
    wonSet (⟨Function.update s.phase i ph, st⟩ : SemState n) =
      if ph = Phase.won then insert i ((wonSet s).erase i)
      else (wonSet s).erase i :=
  filter_update_phase s.phase i ph (fun p => p = Phase.won)

theorem mem_liveSet {n : Nat} {s : SemState n} {i : Fin n} :
    i ∈ liveSet s ↔ s.phase i = Phase.won ∨ s.phase i = Phase.lost := by
  simp [liveSet]

theorem mem_wonSet {n : Nat} {s : SemState n} {i : Fin n} :
    i ∈ wonSet s ↔ s.phase i = Phase.won := by
  simp [wonSet]

theorem wonSet_subset_liveSet {n : Nat} (s : SemState n) : wonSet s ⊆ liveSet s := by
  intro j hj
  rw [mem_wonSet] at hj
  rw [mem_liveSet]
  exact Or.inl hj

theorem inv_init {n L : Nat} (id : Fin n → String) : Inv L id (initState n) := by
  have h1 : liveSet (initState n) = ∅ := by
    ext i; simp [liveSet, initState]
  have h2 : wonSet (initState n) = ∅ := by
    ext i; simp [wonSet, initState]
  constructor
  · rw [h1]
    simp [initState]
  · rw [h2]
    simp

theorem inv_step {n L : Nat} {id : Fin n → String} (hinj : Function.Injective id)
    {s s' : SemState n} (hs : Inv L id s) (hstep : AcqStep n L id s s') :
    Inv L id s' := by
  obtain ⟨hst, hwon⟩ := hs
  have hstcard : s.store.card = (liveSet s).card := by
    rw [hst, Finset.card_image_of_injective _ hinj]
  cases hstep with
  | precheckPass i h hc =>
    have hlive : i ∉ liveSet s := by
      rw [mem_liveSet, h]; simp
    have hwonmem : i ∉ wonSet s := by
      rw [mem_wonSet, h]; simp
    constructor
    · rw [liveSet_update]
      simp only [reduceCtorEq, or_self, if_false]
      rw [Finset.erase_eq_of_not_mem hlive]
      exact hst
    · rw [wonSet_update]
      simp only [reduceCtorEq, if_false]
      rw [Finset.erase_eq_of_not_mem hwonmem]
      exact hwon
  | giveup i h =>
    have hlive : i ∉ liveSet s := by
      rw [mem_liveSet, h]; simp
    have hwonmem : i ∉ wonSet s := by
      rw [mem_wonSet, h]; simp
    constructor
    · rw [liveSet_update]
      simp only [reduceCtorEq, or_self, if_false]
      rw [Finset.erase_eq_of_not_mem hlive]
      exact hst
    · rw [wonSet_update]
      simp only [reduceCtorEq, if_false]
      rw [Finset.erase_eq_of_not_mem hwonmem]
      exact hwon
  | batch i h =>
    have hlive : i ∉ liveSet s := by
      rw [mem_liveSet, h]; simp
    have hwonmem : i ∉ wonSet s := by
      rw [mem_wonSet, h]; simp
    have hidnotin : id i ∉ s.store := by
      rw [hst]
      intro hmem
      obtain ⟨j, hj, hje⟩ := Finset.mem_image.mp hmem
      exact hlive (hinj hje ▸ hj)
    have hcardins : (insert (id i) s.store).card = (liveSet s).card + 1 := by
      rw [Finset.card_insert_of_not_mem hidnotin, hstcard]
    by_cases hc : (insert (id i) s.store).card > L
    · rw [if_pos hc]
      constructor
      · rw [liveSet_update, if_pos (Or.inr rfl)]
        rw [Finset.erase_eq_of_not_mem hlive, Finset.image_insert, ← hst]
      · rw [wonSet_update, if_neg (by simp)]
        rw [Finset.erase_eq_of_not_mem hwonmem]
        exact hwon
    · rw [if_neg hc]
      constructor
      · rw [liveSet_update, if_pos (Or.inl rfl)]
        rw [Finset.erase_eq_of_not_mem hlive, Finset.image_insert, ← hst]
      · rw [wonSet_update, if_pos rfl]
        rw [Finset.erase_eq_of_not_mem hwonmem,
          Finset.card_insert_of_not_mem hwonmem]
        have h1 : (wonSet s).card ≤ (liveSet s).card :=
          Finset.card_le_card (wonSet_subset_liveSet s)
        omega
  | rollback i h =>
    have hlive : i ∈ liveSet s := by
      rw [mem_liveSet, h]; simp
    have hwonmem : i ∉ wonSet s := by
      rw [mem_wonSet, h]; simp
    constructor
    · rw [liveSet_update]
      simp only [reduceCtorEq, or_self, if_false]
      rw [hst, ← Finset.image_erase hinj]
    · rw [wonSet_update]
      simp only [reduceCtorEq, if_false]
      rw [Finset.erase_eq_of_not_mem hwonmem]
      exact hwon
  | release i h =>
    constructor
    · rw [liveSet_update]
      simp only [reduceCtorEq, or_self, if_false]
      rw [hst, ← Finset.image_erase hinj]
    · rw [wonSet_update]
      simp only [reduceCtorEq, if_false]
      exact le_trans (Finset.card_erase_le) hwon

theorem hash_hdel (s : Store) (x : String) :
    (hdel s x).1.hash = s.hash.filter (fun p => p.1 != x) := rfl

theorem ttl_hdel (s : Store) (x : String) : (hdel s x).1.ttl = s.ttl := rfl

theorem any_filter_ne (l : List (String × String)) (x : String) :
    (l.filter (fun p => p.1 != x)).any (fun p => p.1 == x) = false := by
  induction l with
  | nil => rfl
  | cons p t ih =>
    by_cases h : p.1 = x
    · simp [List.filter_cons, h, ih]
    · simp [List.filter_cons, h, ih]

theorem hasField_hdel_self (s : Store) (x : String) :
    hasField (hdel s x).1 x = false := by
  simp only [hasField, hash_hdel]
  exact any_filter_ne s.hash x

theorem filter_ne_of_not_any (l : List (String × String)) (x : String)
    (h : l.any (fun p => p.1 == x) = false) :
    l.filter (fun p => p.1 != x) = l := by
  induction l with
  | nil => rfl
  | cons p t ih =>
    simp only [List.any_cons, Bool.or_eq_false_iff] at h
    have h1 : ¬(p.1 = x) := by
      intro he
      rw [he] at h
      simp at h
    simp [List.filter_cons, h1, ih h.2]

theorem one_le_length_hset (s : Store) (f v : String) :
    1 ≤ (hset s f v).hash.length := by
  unfold hset
  by_cases h : s.hash.any (fun p => p.1 == f)
  · rw [if_pos h]
    cases hl : s.hash with
    | nil => rw [hl] at h; simp at h
    | cons a t => simp [hl]
  · rw [if_neg h]
    simp

theorem inv_reachable {n L : Nat} {id : Fin n → String}
    (hinj : Function.Injective id) {s : SemState n}
    (hr : Reachable n L id s) : Inv L id s := by
  induction hr with
  | init => exact inv_init id
  | step _ hstep ih => exact inv_step hinj ih hstep

/-! ### Lemmas about the acquisition loop -/

theorem limitLoop_fst_succ {ε α : Type} (cfg : LimitConfiguration) (lockId : String)
    (env : LoopEnv ε α) (k fuel : Nat) :
    (limitLoop cfg lockId env k (fuel + 1)).1 =
      match acquiredCount cfg lockId env k with
      | some count =>
        (match env.body count with
         | .ok a => .ok count a
         | .error e => .bodyErr count e)
      | none =>
        if env.elapsed k > cfg.limit_timeout then
          .timeout ⟨cfg.limit, cfg.limit_timeout⟩
        else (limitLoop cfg lockId env (k + 1) fuel).1 := by
  rw [limitLoop]
  unfold acquiredCount
  cases hA : acquiredOf (attempt cfg lockId (env.wall k) (env.sPre k) (env.sMid k)).1 with
  | none =>
    simp only [hA]
    by_cases hE : env.elapsed k > cfg.limit_timeout
    · simp [hE]
    · simp [hE]
  | some c => simp [hA]

theorem limitLoop_snd_succ {ε α : Type} (cfg : LimitConfiguration) (lockId : String)
    (env : LoopEnv ε α) (k fuel : Nat) :
    (limitLoop cfg lockId env k (fuel + 1)).2 =
      match acquiredCount cfg lockId env k with
      | some _ =>
        [(k, (attempt cfg lockId (env.wall k) (env.sPre k) (env.sMid k)).2)]
      | none =>
        if env.elapsed k > cfg.limit_timeout then
          [(k, (attempt cfg lockId (env.wall k) (env.sPre k) (env.sMid k)).2)]
        else
          (k, (attempt cfg lockId (env.wall k) (env.sPre k) (env.sMid k)).2)
            :: (limitLoop cfg lockId env (k + 1) fuel).2 := by
  rw [limitLoop]
  unfold acquiredCount
  cases hA : acquiredOf (attempt cfg lockId (env.wall k) (env.sPre k) (env.sMid k)).1 with
  | none =>
    simp only [hA]
    by_cases hE : env.elapsed k > cfg.limit_timeout
    · simp [hE]
    · simp [hE]
  | some c => simp [hA]

theorem limitLoop_fst_succ_some {ε α : Type} (cfg : LimitConfiguration)
    (lockId : String) (env : LoopEnv ε α) (k fuel c : Nat)
    (hA : acquiredCount cfg lockId env k = some c) :
    (limitLoop cfg lockId env k (fuel + 1)).1 =
      match env.body c with
      | .ok a => .ok c a
      | .error e => .bodyErr c e := by
  rw [limitLoop_fst_succ, hA]

theorem limitLoop_fst_succ_none {ε α : Type} (cfg : LimitConfiguration)
    (lockId : String) (env : LoopEnv ε α) (k fuel : Nat)
    (hA : acquiredCount cfg lockId env k = none) :
    (limitLoop cfg lockId env k (fuel + 1)).1 =
      if env.elapsed k > cfg.limit_timeout then
        .timeout ⟨cfg.limit, cfg.limit_timeout⟩
      else (limitLoop cfg lockId env (k + 1) fuel).1 := by
  rw [limitLoop_fst_succ, hA]

theorem acquiredCount_some {ε α : Type} (cfg : LimitConfiguration) (lockId : String)
    (env : LoopEnv ε α) (k c : Nat)
    (h : acquiredCount cfg lockId env k = some c) :
    ∃ s, (attempt cfg lockId (env.wall k) (env.sPre k) (env.sMid k)).1
      = .acquired c s := by
  unfold acquiredCount at h
  cases hAtt : (attempt cfg lockId (env.wall k) (env.sPre k) (env.sMid k)).1 with
  | rejectedPre => rw [hAtt] at h; simp [acquiredOf] at h
  | rejectedPost s => rw [hAtt] at h; simp [acquiredOf] at h
  | acquired c' s =>
    rw [hAtt] at h
    simp only [acquiredOf, Option.some.injEq] at h
    subst h
    exact ⟨s, rfl⟩

theorem hlen_pipelineStore (cfg : LimitConfiguration) (lockId : String)
    (wall : Nat) (sMid : Store) :
    hlen (pipelineStore cfg lockId wall sMid)
      = (hset sMid lockId (toString (wall + cfg.limit_expire))).hash.length := rfl

theorem attempt_acquired_bound (cfg : LimitConfiguration) (lockId : String)
    (wall : Nat) (sPre sMid : Store) (c : Nat) (s : Store)
    (h : (attempt cfg lockId wall sPre sMid).1 = .acquired c s) :
    1 ≤ c ∧ c ≤ cfg.limit := by
  unfold attempt at h
  by_cases h1 : hlen sPre ≥ cfg.limit
  · rw [if_pos h1] at h; simp at h
  · rw [if_neg h1] at h
    simp only at h
    by_cases h2 : hlen (pipelineStore cfg lockId wall sMid) > cfg.limit
    · rw [if_pos h2] at h; simp at h
    · rw [if_neg h2] at h
      simp only [AttemptResult.acquired.injEq] at h
      obtain ⟨hc, hs⟩ := h
      subst hc
      constructor
      · rw [hlen_pipelineStore]
        exact one_le_length_hset sMid lockId _
      · omega

theorem loop_yield_bound {ε α : Type} (cfg : LimitConfiguration) (lockId : String)
    (env : LoopEnv ε α) :
    ∀ fuel k c, yieldedCount (limitLoop cfg lockId env k fuel).1 = some c →
      1 ≤ c ∧ c ≤ cfg.limit := by
  intro fuel
  induction fuel with
  | zero => intro k c h; simp [limitLoop, yieldedCount] at h
  | succ n ih =>
    intro k c h
    cases hA : acquiredCount cfg lockId env k with
    | some c' =>
      rw [limitLoop_fst_succ_some cfg lockId env k n c' hA] at h
      obtain ⟨s, hAtt⟩ := acquiredCount_some cfg lockId env k c' hA
      have hb := attempt_acquired_bound cfg lockId (env.wall k) (env.sPre k)
        (env.sMid k) c' s hAtt
      cases hB : env.body c' <;> rw [hB] at h <;>
        simp only [yieldedCount, Option.some.injEq] at h <;> subst h <;> exact hb
    | none =>
      rw [limitLoop_fst_succ_none cfg lockId env k n hA] at h
      by_cases hE : env.elapsed k > cfg.limit_timeout
      · rw [if_pos hE] at h; simp [yieldedCount] at h
      · rw [if_neg hE] at h; exact ih (k + 1) c h

theorem loop_bodyErr {ε α : Type} (cfg : LimitConfiguration) (lockId : String)
    (env : LoopEnv ε α) :
    ∀ fuel k c e, (limitLoop cfg lockId env k fuel).1 = .bodyErr c e →
      env.body c = .error e := by
  intro fuel
  induction fuel with
  | zero => intro k c e h; simp [limitLoop] at h
  | succ n ih =>
    intro k c e h
    cases hA : acquiredCount cfg lockId env k with
    | some c' =>
      rw [limitLoop_fst_succ_some cfg lockId env k n c' hA] at h
      cases hB : env.body c' <;> rw [hB] at h
      · simp only [LoopResult.bodyErr.injEq] at h
        obtain ⟨h1, h2⟩ := h
        subst h1
        subst h2
        exact hB
      · simp at h
    | none =>
      rw [limitLoop_fst_succ_none cfg lockId env k n hA] at h
      by_cases hE : env.elapsed k > cfg.limit_timeout
      · rw [if_pos hE] at h; simp at h
      · rw [if_neg hE] at h; exact ih (k + 1) c e h

theorem loop_timeout_from {ε α : Type} (cfg : LimitConfiguration) (lockId : String)
    (env : LoopEnv ε α) :
    ∀ fuel k exc, (limitLoop cfg lockId env k fuel).1 = .timeout exc →
      exc = ⟨cfg.limit, cfg.limit_timeout⟩ ∧
      ∃ m, m < fuel ∧
        (∀ j, j ≤ m → acquiredCount cfg lockId env (k + j) = none) ∧
        env.elapsed (k + m) > cfg.limit_timeout := by
  intro fuel
  induction fuel with
  | zero => intro k exc h; simp [limitLoop] at h
  | succ n ih =>
    intro k exc h
    cases hA : acquiredCount cfg lockId env k with
    | some c =>
      rw [limitLoop_fst_succ_some cfg lockId env k n c hA] at h
      cases hB : env.body c <;> rw [hB] at h <;> simp at h
    | none =>
      rw [limitLoop_fst_succ_none cfg lockId env k n hA] at h
      by_cases hE : env.elapsed k > cfg.limit_timeout
      · rw [if_pos hE] at h
        have hexc : exc = ⟨cfg.limit, cfg.limit_timeout⟩ := by
          simp only [LoopResult.timeout.injEq] at h
          exact h.symm
        refine ⟨hexc, 0, by omega, ?_, by simpa using hE⟩
        intro j hj
        have hj0 : j = 0 := Nat.le_zero.mp hj
        subst hj0
        simpa using hA
      · rw [if_neg hE] at h
        obtain ⟨hexc, m, hm, hrej, hel⟩ := ih (k + 1) exc h
        refine ⟨hexc, m + 1, by omega, ?_, ?_⟩
        · intro j hj
          cases j with
          | zero => simpa using hA
          | succ j' =>
            have hr := hrej j' (by omega)
            rw [show k + (j' + 1) = k + 1 + j' by omega]
            exact hr
        · rw [show k + (m + 1) = k + 1 + m by omega]
          exact hel

theorem loop_timeout_to {ε α : Type} (cfg : LimitConfiguration) (lockId : String)
    (env : LoopEnv ε α) :
    ∀ fuel k m, m < fuel →
      (∀ j, j ≤ m → acquiredCount cfg lockId env (k + j) = none) →
      env.elapsed (k + m) > cfg.limit_timeout →
      (limitLoop cfg lockId env k fuel).1
        = .timeout ⟨cfg.limit, cfg.limit_timeout⟩ := by
  intro fuel
  induction fuel with
  | zero => intro k m hm; omega
  | succ n ih =>
    intro k m hm hrej hel
    rw [limitLoop_fst_succ]
    have hA := hrej 0 (by omega)
    simp only [Nat.add_zero] at hA
    rw [hA]
    by_cases hE : env.elapsed k > cfg.limit_timeout
    · rw [if_pos hE]
    · rw [if_neg hE]
      cases m with
      | zero =>
        simp only [Nat.add_zero] at hel
        exact absurd hel hE
      | succ m' =>
        apply ih (k + 1) m' (by omega)
        · intro j hj
          have hr := hrej (j + 1) (by omega)
          rw [show k + 1 + j = k + (j + 1) by omega]
          exact hr
        · rw [show k + 1 + m' = k + (m' + 1) by omega]
          exact hel

theorem attempt_fields (cfg : LimitConfiguration) (lockId : String) (wall : Nat)
    (sPre sMid : Store) :
    ((writtenFields (attempt cfg lockId wall sPre sMid).2).all
      fun f => f == lockId) = true := by
  unfold attempt
  by_cases h1 : hlen sPre ≥ cfg.limit
  · rw [if_pos h1]
    simp [writtenFields]
  · rw [if_neg h1]
    simp only
    by_cases h2 : hlen (pipelineStore cfg lockId wall sMid) > cfg.limit
    · rw [if_pos h2]
      simp [writtenFields]
    · rw [if_neg h2]
      simp [writtenFields]

theorem loop_fields {ε α : Type} (cfg : LimitConfiguration) (lockId : String)
    (env : LoopEnv ε α) :
    ∀ fuel k,
      ((limitLoop cfg lockId env k fuel).2.all fun p =>
        (writtenFields p.2).all fun f => f == lockId) = true := by
  intro fuel
  induction fuel with
  | zero => intro k; rfl
  | succ n ih =>
    intro k
    rw [limitLoop_snd_succ]
    cases hA : acquiredCount cfg lockId env k with
    | some c =>
      simp [attempt_fields]
    | none =>
      by_cases hE : env.elapsed k > cfg.limit_timeout
      · rw [if_pos hE]
        simp [attempt_fields]
      · rw [if_neg hE]
        simp [attempt_fields, ih (k + 1)]

/-! ### Lemmas about the reaper -/

theorem any_key_eq_false {l : List (String × String)} {x : String}
    (h : x ∉ l.map Prod.fst) : l.any (fun p => p.1 == x) = false := by
  induction l with
  | nil => rfl
  | cons q t ih =>
    simp only [List.map_cons, List.mem_cons] at h
    push_neg at h
    have h1 : ¬(q.1 = x) := fun he => h.1 he.symm
    simp [List.any_cons, h1, ih h.2]

theorem hdel_of_not_hasField (s : Store) (x : String) (h : hasField s x = false) :
    hdel s x = (s, 0) := by
  unfold hasField at h
  simp [hdel, h, filter_ne_of_not_any s.hash x h]

theorem cleanGo_cons (current : Int) (p : String × String)
    (rest : List (String × String)) (t : Store) (c : Nat) :
    cleanGo current (p :: rest) t c =
      if staleEntry current p then
        cleanGo current rest (hdel t p.1).1 (c + (hdel t p.1).2)
      else cleanGo current rest t c := rfl

theorem cleanGo_spec (current : Int) :
    ∀ (todo kept : List (String × String)) (t : Store) (c : Nat),
      t.hash = kept ++ todo →
      ((kept ++ todo).map Prod.fst).Nodup →
      (cleanGo current todo t c).1.hash
          = kept ++ todo.filter (fun p => !staleEntry current p) ∧
        (cleanGo current todo t c).2
          = c + (todo.filter (fun p => staleEntry current p)).length ∧
        (cleanGo current todo t c).1.ttl = t.ttl := by
  intro todo
  induction todo with
  | nil =>
    intro kept t c ht hnd
    refine ⟨?_, ?_, rfl⟩ <;> simp [cleanGo, ht]
  | cons p rest ih =>
    intro kept t c ht hnd
    have hnd0 := hnd
    rw [List.map_append, List.nodup_append] at hnd
    obtain ⟨hk, hpr, hdisj⟩ := hnd
    rw [List.map_cons, List.nodup_cons] at hpr
    obtain ⟨hpnr, hrest⟩ := hpr
    have hpnk : p.1 ∉ kept.map Prod.fst :=
      fun hmem => hdisj hmem (List.mem_cons_self _ _)
    by_cases hstale : staleEntry current p
    · have hdel1 : (hdel t p.1).1.hash = kept ++ rest := by
        rw [hash_hdel, ht, List.filter_append,
          filter_ne_of_not_any kept p.1 (any_key_eq_false hpnk), List.filter_cons]
        simp only [bne_self_eq_false, Bool.false_eq_true, if_false]
        rw [filter_ne_of_not_any rest p.1 (any_key_eq_false hpnr)]
      have hdel2 : (hdel t p.1).2 = 1 := by
        simp [hdel, ht, List.any_append, List.any_cons]
      have hnd1 : ((kept ++ rest).map Prod.fst).Nodup := by
        rw [List.map_append, List.nodup_append]
        exact ⟨hk, hrest, fun a ha hmem => hdisj ha (List.mem_cons_of_mem _ hmem)⟩
      obtain ⟨ih1, ih2, ih3⟩ :=
        ih kept (hdel t p.1).1 (c + (hdel t p.1).2) hdel1 hnd1
      refine ⟨?_, ?_, ?_⟩
      · rw [cleanGo_cons, if_pos hstale, ih1, List.filter_cons]
        simp [hstale]
      · rw [cleanGo_cons, if_pos hstale, ih2, hdel2, List.filter_cons, if_pos hstale]
        simp only [List.length_cons]
        omega
      · rw [cleanGo_cons, if_pos hstale, ih3, ttl_hdel]
    · have hfalse : staleEntry current p = false := by simpa using hstale
      have ht1 : t.hash = (kept ++ [p]) ++ rest := by
        rw [ht, List.append_assoc, List.singleton_append]
      have hnd1 : (((kept ++ [p]) ++ rest).map Prod.fst).Nodup := by
        rw [List.append_assoc, List.singleton_append]
        exact hnd0
      obtain ⟨ih1, ih2, ih3⟩ := ih (kept ++ [p]) t c ht1 hnd1
      refine ⟨?_, ?_, ?_⟩
      · rw [cleanGo_cons, if_neg hstale, ih1, List.filter_cons, hfalse]
        simp [List.append_assoc]
      · rw [cleanGo_cons, if_neg hstale, ih2, List.filter_cons, hfalse]
        simp
      · rw [cleanGo_cons, if_neg hstale, ih3]

/-! ### The claims -/

/-- C1: for acquirers racing on one limiter record under the
acquire/execute/release protocol with limit `L`, every reachable committed
state — one where no racing acquirer sits between its insert and its
rollback, i.e. all have completed their verify step — holds at most `L`
slots in the record; any overshoot is transient, confined to the
insert-to-rollback window of a pending loser, and never persists. -/
theorem c1_committed_slot_bound {n L : Nat} (id : Fin n → String)
    (hinj : Function.Injective id) (s : SemState n)
    (hr : Reachable n L id s) (hv : ∀ i, s.phase i ≠ Phase.lost) :
    s.store.card ≤ L := by
  obtain ⟨hst, hwon⟩ := inv_reachable hinj hr
  have hlive : liveSet s = wonSet s := by
    ext i
    simp only [liveSet, wonSet, Finset.mem_filter, Finset.mem_univ, true_and]
    exact or_iff_left (hv i)
  rw [hst, Finset.card_image_of_injective _ hinj, hlive]
  exact hwon

/-- Witness for C1: a concrete two-acquirer run in which the first acquirer
passes its pre-check on the empty record and wins its atomic
insert-and-verify pipeline; the committed record holds one slot, within
limit 1. -/
theorem c1_committed_slot_bound_witness : s2W.store.card ≤ 1 :=
  c1_committed_slot_bound idW (by decide) s2W
    (Reachable.step
      (Reachable.step Reachable.init
        (AcqStep.precheckPass (initState 2) 0 rfl (by decide)))
      (AcqStep.batch s1W 0 (by simp [s1W, Function.update_same])))
    (by decide)

/-- C2: on every terminating exit path of the `limit` context manager —
normal completion, critical-section failure, and timeout failure — the
final store is the one produced by the guaranteed-cleanup `hdel` of the
caller's slot id, so the slot id is absent from the limiter record
immediately after exit. -/
theorem c2_release_on_every_exit {ε α : Type} (cfg : LimitConfiguration)
    (lockId : String) (env : LoopEnv ε α) (fuel : Nat) (f : Store)
    (h : finalStore (limit cfg lockId env fuel) = some f) :
    f = (hdel env.sFin lockId).1 ∧ hasField f lockId = false := by
  simp only [limit] at h
  cases hl : (limitLoop cfg lockId env 0 fuel).1 with
  | ok c a =>
    rw [hl] at h
    simp only [finalStore, Option.some.injEq] at h
    subst h
    exact ⟨rfl, hasField_hdel_self env.sFin lockId⟩
  | bodyErr c e =>
    rw [hl] at h
    simp only [finalStore, Option.some.injEq] at h
    subst h
    exact ⟨rfl, hasField_hdel_self env.sFin lockId⟩
  | timeout exc =>
    rw [hl] at h
    simp only [finalStore, Option.some.injEq] at h
    subst h
    exact ⟨rfl, hasField_hdel_self env.sFin lockId⟩
  | spin =>
    rw [hl] at h
    simp [finalStore] at h

/-- Witness for C2: a concrete successful run on `envOk` leaves a record
from which the slot id `me` has been deleted. -/
theorem c2_release_on_every_exit_witness :
    (⟨[], some 3⟩ : Store) = (hdel envOk.sFin "me").1 ∧
      hasField (⟨[], some 3⟩ : Store) "me" = false :=
  c2_release_on_every_exit cfgW "me" envOk 1 ⟨[], some 3⟩ (by decide)

/-- C3: the loop of `limit` produces the distinguished timeout error iff
some attempt was rejected while the monotonic elapsed time observed in its
handler exceeded the configured timeout and no attempt up to that point
obtained a slot; the error carries exactly the configured limit and timeout
values. -/
theorem c3_timeout_iff {ε α : Type} (cfg : LimitConfiguration)
    (lockId : String) (env : LoopEnv ε α) (fuel : Nat)
    (exc : ConcurrencyLimitExceededException) :
    (limitLoop cfg lockId env 0 fuel).1 = .timeout exc ↔
      (exc = ⟨cfg.limit, cfg.limit_timeout⟩ ∧
       ∃ m, m < fuel ∧
         (∀ j, j ≤ m → acquiredCount cfg lockId env j = none) ∧
         env.elapsed m > cfg.limit_timeout) := by
  constructor
  · intro h
    obtain ⟨hexc, m, hm, hrej, hel⟩ :=
      loop_timeout_from cfg lockId env fuel 0 exc h
    refine ⟨hexc, m, hm, ?_, by simpa using hel⟩
    intro j hj
    simpa using hrej j hj
  · rintro ⟨hexc, m, hm, hrej, hel⟩
    subst hexc
    apply loop_timeout_to cfg lockId env fuel 0 m hm
    · intro j hj
      simpa using hrej j hj
    · simpa using hel

/-- C4: when the pre-check passed, the optimistic-write step behaves as
follows: if the post-write count exceeds the limit, the attempt rejects
after deleting the caller's own slot id from the pipeline store and the
loop proceeds to the retry/timeout step; if it does not exceed the limit,
the slot is held and the loop passes exactly that observed count to the
critical section. -/
theorem c4_verify_step {ε α : Type} (cfg : LimitConfiguration)
    (lockId : String) (env : LoopEnv ε α) (k fuel : Nat)
    (hpre : hlen (env.sPre k) < cfg.limit) :
    (attempt cfg lockId (env.wall k) (env.sPre k) (env.sMid k)).1 =
      (if hlen (pipelineStore cfg lockId (env.wall k) (env.sMid k)) > cfg.limit
       then .rejectedPost
         (hdel (pipelineStore cfg lockId (env.wall k) (env.sMid k)) lockId).1
       else .acquired
         (hlen (pipelineStore cfg lockId (env.wall k) (env.sMid k)))
         (pipelineStore cfg lockId (env.wall k) (env.sMid k))) ∧
    hasField
      (hdel (pipelineStore cfg lockId (env.wall k) (env.sMid k)) lockId).1
      lockId = false ∧
    (limitLoop cfg lockId env k (fuel + 1)).1 =
      (if hlen (pipelineStore cfg lockId (env.wall k) (env.sMid k)) > cfg.limit
       then
         (if env.elapsed k > cfg.limit_timeout
          then .timeout ⟨cfg.limit, cfg.limit_timeout⟩
          else (limitLoop cfg lockId env (k + 1) fuel).1)
       else
         (match env.body
             (hlen (pipelineStore cfg lockId (env.wall k) (env.sMid k))) with
          | .ok a =>
            .ok (hlen (pipelineStore cfg lockId (env.wall k) (env.sMid k))) a
          | .error e =>
            .bodyErr
              (hlen (pipelineStore cfg lockId (env.wall k) (env.sMid k))) e)) := by
  have hatt : (attempt cfg lockId (env.wall k) (env.sPre k) (env.sMid k)).1 =
      (if hlen (pipelineStore cfg lockId (env.wall k) (env.sMid k)) > cfg.limit
       then AttemptResult.rejectedPost
         (hdel (pipelineStore cfg lockId (env.wall k) (env.sMid k)) lockId).1
       else AttemptResult.acquired
         (hlen (pipelineStore cfg lockId (env.wall k) (env.sMid k)))
         (pipelineStore cfg lockId (env.wall k) (env.sMid k))) := by
    unfold attempt
    rw [if_neg (by omega : ¬ hlen (env.sPre k) ≥ cfg.limit)]
    by_cases h2 :
      hlen (pipelineStore cfg lockId (env.wall k) (env.sMid k)) > cfg.limit
    · simp [h2]
    · simp [h2]
  refine ⟨hatt, hasField_hdel_self _ lockId, ?_⟩
  by_cases h2 :
    hlen (pipelineStore cfg lockId (env.wall k) (env.sMid k)) > cfg.limit
  · have hA : acquiredCount cfg lockId env k = none := by
      unfold acquiredCount
      rw [hatt, if_pos h2]
      rfl
    rw [limitLoop_fst_succ_none cfg lockId env k fuel hA, if_pos h2]
  · have hA : acquiredCount cfg lockId env k =
        some (hlen (pipelineStore cfg lockId (env.wall k) (env.sMid k))) := by
      unfold acquiredCount
      rw [hatt, if_neg h2]
      rfl
    rw [limitLoop_fst_succ_some cfg lockId env k fuel _ hA, if_neg h2]

/-- Witness for C4 at a concrete rejected-by-verify attempt: the pre-check
passes on the empty record, the pipeline sees a competing entry, and the
attempt rolls back and proceeds to the retry/timeout step. -/
theorem c4_verify_step_witness :
    (attempt cfgW "me" (envTimeout.wall 0) (envTimeout.sPre 0)
        (envTimeout.sMid 0)).1 =
      (if hlen (pipelineStore cfgW "me" (envTimeout.wall 0) (envTimeout.sMid 0))
          > cfgW.limit
       then .rejectedPost
         (hdel (pipelineStore cfgW "me" (envTimeout.wall 0) (envTimeout.sMid 0))
           "me").1
       else .acquired
         (hlen (pipelineStore cfgW "me" (envTimeout.wall 0) (envTimeout.sMid 0)))
         (pipelineStore cfgW "me" (envTimeout.wall 0) (envTimeout.sMid 0))) ∧
    hasField
      (hdel (pipelineStore cfgW "me" (envTimeout.wall 0) (envTimeout.sMid 0))
        "me").1 "me" = false ∧
    (limitLoop cfgW "me" envTimeout 0 (3 + 1)).1 =
      (if hlen (pipelineStore cfgW "me" (envTimeout.wall 0) (envTimeout.sMid 0))
          > cfgW.limit
       then
         (if envTimeout.elapsed 0 > cfgW.limit_timeout
          then .timeout ⟨cfgW.limit, cfgW.limit_timeout⟩
          else (limitLoop cfgW "me" envTimeout (0 + 1) 3).1)
       else
         (match envTimeout.body
             (hlen (pipelineStore cfgW "me" (envTimeout.wall 0)
               (envTimeout.sMid 0))) with
          | .ok a =>
            .ok (hlen (pipelineStore cfgW "me" (envTimeout.wall 0)
              (envTimeout.sMid 0))) a
          | .error e =>
            .bodyErr (hlen (pipelineStore cfgW "me" (envTimeout.wall 0)
              (envTimeout.sMid 0))) e)) :=
  c4_verify_step cfgW "me" envTimeout 0 3 (by decide)

/-- C5: the reaper deletes exactly the entries whose parsed expiry is at or
before the current time or whose expiry is unparsable, leaves every entry
with a strictly future parsable expiry untouched, returns the count of
removed entries, and — being a total function whose parse-failure branch
marks the entry stale instead of raising — never raises on malformed
entries. -/
theorem c5_reaper_correct (current : Int) (s : Store)
    (hnd : (s.hash.map Prod.fst).Nodup) :
    (limit_clean current s).1.hash
        = s.hash.filter (fun p => !staleEntry current p) ∧
      (limit_clean current s).2
        = (s.hash.filter (fun p => staleEntry current p)).length ∧
      (limit_clean current s).1.ttl = s.ttl := by
  have h := cleanGo_spec current s.hash [] s 0 (by simp) (by simpa using hnd)
  simpa [limit_clean] using h

/-- Witness for C5 on the record with expiries past, future and corrupt at
current time 10: the expired and the corrupt entries are removed, the
future one kept, and the count is 2. -/
theorem c5_reaper_correct_witness :
    (limit_clean 10 storeC5).1.hash
        = storeC5.hash.filter (fun p => !staleEntry 10 p) ∧
      (limit_clean 10 storeC5).2
        = (storeC5.hash.filter (fun p => staleEntry 10 p)).length ∧
      (limit_clean 10 storeC5).1.ttl = storeC5.ttl :=
  c5_reaper_correct 10 storeC5 (by decide)

/-- C6: when the pre-check read sees a live-entry count at or above the
limit, the attempt is fast-rejected and the only Redis command issued in
that iteration is the `hlen` read — no insert, no TTL refresh, no
delete. -/
theorem c6_fast_reject_no_write (cfg : LimitConfiguration) (lockId : String)
    (wall : Nat) (sPre sMid : Store) (h : hlen sPre ≥ cfg.limit) :
    attempt cfg lockId wall sPre sMid = (.rejectedPre, [.hlenRead cfg.key]) ∧
    ((attempt cfg lockId wall sPre sMid).2.all fun op => !isWrite op)
      = true := by
  have h1 : attempt cfg lockId wall sPre sMid
      = (.rejectedPre, [.hlenRead cfg.key]) := by
    unfold attempt
    rw [if_pos h]
  exact ⟨h1, by rw [h1]; rfl⟩

/-- Witness for C6: a fast-rejected attempt on a full record issues only
the read. -/
theorem c6_fast_reject_no_write_witness :
    attempt cfgW "me" 0 storeOther store0
        = (.rejectedPre, [.hlenRead cfgW.key]) ∧
      ((attempt cfgW "me" 0 storeOther store0).2.all fun op => !isWrite op)
        = true :=
  c6_fast_reject_no_write cfgW "me" 0 storeOther store0 (by decide)

/-- C7 counterexample: in a concrete run of `limit` with slot id `me` that
executes three rejected iterations, every iteration writes the very same
slot-id field `me`, so it is false that each iteration of the acquisition
loop uses a newly generated slot id distinct from the ids used in the other
attempts — the id is generated once, before the loop. -/
theorem c7_fresh_id_counterexample :
    ¬ (∀ p ∈ (limitLoop cfgW "me" envTimeout 0 5).2,
        ∀ q ∈ (limitLoop cfgW "me" envTimeout 0 5).2, p.1 ≠ q.1 →
          ∀ f1 ∈ writtenFields p.2, ∀ f2 ∈ writtenFields q.2, f1 ≠ f2) := by
  decide

/-- C7 amended: a single slot id is generated per execution of the `limit`
context manager, before the acquisition loop, and every slot-id field
written (inserted or deleted) by any iteration of that execution is that
single id; distinct executions, with their distinct generated ids,
therefore touch distinct slot fields. -/
theorem c7_single_lock_id_per_call {ε α : Type} (cfg : LimitConfiguration)
    (lockId : String) (env : LoopEnv ε α) (fuel k : Nat) :
    ((limitLoop cfg lockId env k fuel).2.all fun p =>
      (writtenFields p.2).all fun f => f == lockId) = true :=
  loop_fields cfg lockId env fuel k

/-- C8: a failure raised by the critical section propagates out of `limit`
unmodified — the outcome carries exactly the error the body produced — and
the caller's slot id has already been deleted from the record by the
guaranteed-cleanup step when the caller observes the failure. -/
theorem c8_body_error_propagates {ε α : Type} (cfg : LimitConfiguration)
    (lockId : String) (env : LoopEnv ε α) (fuel : Nat) (c : Nat) (e : ε)
    (f : Store) (h : limit cfg lockId env fuel = .bodyErr c e f) :
    env.body c = .error e ∧ f = (hdel env.sFin lockId).1 ∧
      hasField f lockId = false := by
  simp only [limit] at h
  cases hl : (limitLoop cfg lockId env 0 fuel).1 with
  | ok c' a =>
    rw [hl] at h
    simp at h
  | bodyErr c' e' =>
    rw [hl] at h
    simp only [LimitOutcome.bodyErr.injEq] at h
    obtain ⟨h1, h2, h3⟩ := h
    subst h1
    subst h2
    subst h3
    exact ⟨loop_bodyErr cfg lockId env fuel 0 c' e' hl, rfl,
      hasField_hdel_self env.sFin lockId⟩
  | timeout exc =>
    rw [hl] at h
    simp at h
  | spin =>
    rw [hl] at h
    simp at h

/-- Witness for C8: a concrete run whose critical section raises; the error
surfaces unchanged and the slot id `me` is gone from the final record. -/
theorem c8_body_error_propagates_witness :
    envErr.body 1 = .error () ∧
      (⟨[], some 3⟩ : Store) = (hdel envErr.sFin "me").1 ∧
      hasField (⟨[], some 3⟩ : Store) "me" = false :=
  c8_body_error_propagates cfgW "me" envErr 1 1 () ⟨[], some 3⟩ (by decide)

/-- C9: releasing a slot id that is absent from the limiter record is an
idempotent no-op — the `hdel` returns the store unchanged together with a
deleted-count of zero, so it does not raise and leaves every other entry
untouched. -/
theorem c9_idempotent_release (s : Store) (lockId : String)
    (h : hasField s lockId = false) : hdel s lockId = (s, 0) :=
  hdel_of_not_hasField s lockId h

/-- Witness for C9: deleting the absent id `me` from an occupied record
returns the record unchanged with count 0. -/
theorem c9_idempotent_release_witness : hdel storeOther "me" = (storeOther, 0) :=
  c9_idempotent_release storeOther "me" (by decide)

/-- C10: whenever the loop of `limit` yields a count to the critical
section, that count is the post-insert mapping length, which contains the
caller's own freshly inserted entry and passed the verify check, so
`1 ≤ count ≤ limit`. -/
theorem c10_yield_count_bounds {ε α : Type} (cfg : LimitConfiguration)
    (lockId : String) (env : LoopEnv ε α) (fuel k c : Nat)
    (h : yieldedCount (limitLoop cfg lockId env k fuel).1 = some c) :
    1 ≤ c ∧ c ≤ cfg.limit :=
  loop_yield_bound cfg lockId env fuel k c h

/-- Witness for C10: the concrete successful run on `envOk` yields count 1,
which lies between 1 and the configured limit. -/
theorem c10_yield_count_bounds_witness : 1 ≤ 1 ∧ 1 ≤ cfgW.limit :=
  c10_yield_count_bounds cfgW "me" envOk 1 0 1 (by decide)

end ConcurrencyLimit
